import Mathlib

/-!
Verification of the signature-extraction pipeline of
`talon/signature/bruteforce.py` (the `extract_signature` orchestrator and
its helpers `get_signature_candidate`, `_mark_candidate_indexes`,
`_process_marked_candidate_indexes`, and the three pattern layers
`RE_SIGNATURE`, `RE_PHONE_SIGNATURE`, `RE_SIGNATURE_CANDIDATE`).

Python strings are embedded as `List Char`.  Python regular-expression
searching for the two phrase patterns is embedded by its observable
behaviour: both patterns are alternations wrapped as `((?:alts).*)` with
`DOTALL`, so a successful search yields the suffix of the text starting at
the leftmost position where some alternative matches; the alternatives are
embedded as a small pattern AST with a set-of-remainders matcher.  The
candidate-marker pattern `RE_SIGNATURE_CANDIDATE` is embedded directly by
Python search semantics: leftmost position first, alternatives in order.
-/

namespace Talon

/-- Python unicode whitespace, as used by `str.strip()` and `\s`. -/
def isPyWs (c : Char) : Bool :=
  c == ' ' || c == '\t' || c == '\n' || c == '\x0b' || c == '\x0c' || c == '\r' ||
  c == '\x1c' || c == '\x1d' || c == '\x1e' || c == '\x1f' || c == '\x85' ||
  c == '\xa0' || c == '\u1680' || decide ('\u2000' ≤ c ∧ c ≤ '\u200A') ||
  c == '\u2028' || c == '\u2029' || c == '\u202F' || c == '\u205F' || c == '\u3000'

/-- The line boundaries recognised by Python `str.splitlines`
(`\r\n` is additionally treated as a single boundary). -/
def isLineBoundary (c : Char) : Bool :=
  c == '\n' || c == '\r' || c == '\x0b' || c == '\x0c' ||
  c == '\x1c' || c == '\x1d' || c == '\x1e' || c == '\x85' ||
  c == '\u2028' || c == '\u2029'

/-- Case folding for the caseless (`regex.I`) literals appearing in the
patterns: ASCII letters and the German vowels with umlauts. -/
def lcChar (c : Char) : Char :=
  if 'A' ≤ c ∧ c ≤ 'Z' then Char.ofNat (c.toNat + 32)
  else if c = 'Ä' then 'ä'
  else if c = 'Ö' then 'ö'
  else if c = 'Ü' then 'ü'
  else c

/-- Drop trailing whitespace (right-side counterpart of `dropWhile`). -/
def rdropWs (l : List Char) : List Char :=
  (l.reverse.dropWhile isPyWs).reverse

/-- Python `str.strip()`: drop leading and trailing unicode whitespace. -/
def pyStrip (l : List Char) : List Char :=
  rdropWs (l.dropWhile isPyWs)

/-- Python `str.strip("-")`: drop leading and trailing dashes. -/
def pyStripDash (l : List Char) : List Char :=
  ((l.dropWhile (· == '-')).reverse.dropWhile (· == '-')).reverse

/-- Python `delimiter.join(parts)`. -/
def joinWith (d : List Char) : List (List Char) → List Char
  | [] => []
  | [x] => x
  | x :: y :: t => x ++ d ++ joinWith d (y :: t)

/-- Python `str.split(sep)` for a one-character separator (every
occurrence of `sep` separates two fields; the empty string yields one
empty field). -/
def pySplitOn (sep : Char) : List Char → List (List Char)
  | [] => [[]]
  | c :: rest =>
    if c = sep then [] :: pySplitOn sep rest
    else match pySplitOn sep rest with
      | [] => [[c]]
      | l :: ls => (c :: l) :: ls

/-- Python `str.splitlines()`: split at every unicode line boundary
(`\r\n` counting as one boundary); a trailing boundary produces no final
empty line. -/
def pySplitlines : List Char → List (List Char)
  | [] => []
  | c :: rest =>
    if c = '\r' then
      match rest with
      | [] => [[]]
      | c2 :: rest2 =>
        if c2 = '\n' then [] :: pySplitlines rest2
        else [] :: pySplitlines (c2 :: rest2)
    else if isLineBoundary c then [] :: pySplitlines rest
    else match pySplitlines rest with
      | [] => [[c]]
      | l :: ls => (c :: l) :: ls

/-! ### A pattern AST for the phrase alternatives

Every alternative of `RE_SIGNATURE` and `RE_PHONE_SIGNATURE` is a sequence
of caseless literals, character classes, class repetitions, optional
groups, the dot-all `.*`, and the multiline `$`.  The matcher computes the
set of possible remainders, which decides whether an alternative matches at
a given position (the only fact the pipeline observes, since the trailing
`.*` of the enclosing group extends every successful match to the end of
the text). -/

inductive Pat where
  | cls (f : Char → Bool)
  | starCls (f : Char → Bool)
  | lit (w : List Char)
  | opt (p : Pat)
  | seq (p q : Pat)
  | starAny
  | eol
deriving Inhabited

/-- Remainders after consuming `0..k` leading characters satisfying `f`. -/
def starTails (f : Char → Bool) (l : List Char) : List (List Char) :=
  (List.range ((l.takeWhile f).length + 1)).map (l.drop ·)

/-- All remainders a pattern can leave after matching a prefix of `l`.
`eol` is the multiline `$`: it matches at the end of the text or before a
newline. -/
def matchesR : Pat → List Char → List (List Char)
  | .cls _, [] => []
  | .cls f, c :: r => if f c then [r] else []
  | .starCls f, l => starTails f l
  | .lit w, l => if (l.take w.length).map lcChar = w then [l.drop w.length] else []
  | .opt p, l => l :: matchesR p l
  | .seq p q, l => (matchesR p l).flatMap (matchesR q)
  | .starAny, l => l.tails
  | .eol, l => if l.isEmpty || l.head? == some '\n' then [l] else []

/-- Sequence a list of patterns (`Pat.lit []` is the empty pattern). -/
def pseq (ps : List Pat) : Pat :=
  ps.foldr .seq (.lit [])

/-- Whether `pat` matches some prefix of `t` (the matched span then extends to the
end of the text through the trailing `.*` of the enclosing group). -/
def patMatches (pat : Pat) (t : List Char) : Bool :=
  !(matchesR pat t).isEmpty

def litS (s : String) : Pat := .lit s.toList

/-! Character classes of the patterns (`regex.I` makes `[a-z]` match
uppercase as well). -/

def isAsciiAlpha (c : Char) : Bool :=
  decide ('a' ≤ c ∧ c ≤ 'z') || decide ('A' ≤ c ∧ c ≤ 'Z')

/-- The class `[\s,!]`. -/
def clsWsCommaBang (c : Char) : Bool := isPyWs c || c == ',' || c == '!'

/-- The class `[a-z \.]` under `regex.I`. -/
def clsAlphaSpaceDot (c : Char) : Bool := isAsciiAlpha c || c == ' ' || c == '.'

/-- The class `[ a-z]` under `regex.I`. -/
def clsSpaceAlpha (c : Char) : Bool := isAsciiAlpha c || c == ' '

/-- The classes `[a-z\s]` and `[\sa-z]` under `regex.I`. -/
def clsAlphaWs (c : Char) : Bool := isAsciiAlpha c || isPyWs c

/-- The class `[a-zäöüÄÖÜß\s]` (the `ENG_GER_CHARS_SPACES` class) under `regex.I`. -/
def clsEngGer (c : Char) : Bool :=
  isAsciiAlpha c || c == 'ä' || c == 'ö' || c == 'ü' || c == 'Ä' || c == 'Ö' ||
  c == 'Ü' || c == 'ß' || isPyWs c

/-- The class `[\n,!]`. -/
def clsNlCommaBang (c : Char) : Bool := c == '\n' || c == ',' || c == '!'

/-- The class `\w` (word character; ASCII alphanumerics, underscore and the German
letters that can occur in the texts considered here) -/
def isPyWord (c : Char) : Bool :=
  c.isAlphanum || c == '_' ||
  c == 'ä' || c == 'ö' || c == 'ü' || c == 'Ä' || c == 'Ö' || c == 'Ü' || c == 'ß'

/-- The class `[\s,!\w]`. -/
def clsPhoneTail (c : Char) : Bool := isPyWs c || c == ',' || c == '!' || isPyWord c

def wsC : Pat := .cls isPyWs
def wsS : Pat := .starCls isPyWs
/-- The pattern `\s?`. -/
def optWs : Pat := .opt wsC
/-- The pattern `[\s,!]*`. -/
def wcbS : Pat := .starCls clsWsCommaBang

/-- The `^`-anchored alternatives of `RE_SIGNATURE`, in pattern order
(the unanchored `die\sbesten\swünsche` alternative is separate). -/
def RE_SIGNATURE_anchored : List Pat :=
  [ -- ^[\s]*--*[\s]*[a-z \.]*$
    pseq [wsS, .cls (· == '-'), .starCls (· == '-'), wsS, .starCls clsAlphaSpaceDot, .eol],
    -- ^[\s]*—+[\s]*$
    pseq [wsS, .cls (· == '—'), .starCls (· == '—'), wsS, .eol],
    -- ^thanks?\s?(?:you?\s*)?[a-z]*[\s,!]*$
    pseq [litS "thank", .opt (litS "s"), optWs,
          .opt (pseq [litS "yo", .opt (litS "u"), wsS]),
          .starCls isAsciiAlpha, wcbS, .eol],
    -- ^regards\s?[a-z]*[\s,!]*$
    pseq [litS "regards", optWs, .starCls isAsciiAlpha, wcbS, .eol],
    -- ^(?:with?\s*)?kind\sregards[\sa-z]*[\s,!]*$
    pseq [.opt (pseq [litS "wit", .opt (litS "h"), wsS]),
          litS "kind", wsC, litS "regards", .starCls clsAlphaWs, wcbS, .eol],
    -- ^take\scare\s?[a-z]*[\s,!]*$
    pseq [litS "take", wsC, litS "care", optWs, .starCls isAsciiAlpha, wcbS, .eol],
    -- ^cheers\s?[a-z]*[\s,!]*$
    pseq [litS "cheers", optWs, .starCls isAsciiAlpha, wcbS, .eol],
    -- ^sincerely[\s,!]*$
    pseq [litS "sincerely", wcbS, .eol],
    -- ^best[ a-z]*[\s,!]*$
    pseq [litS "best", .starCls clsSpaceAlpha, wcbS, .eol],
    -- ^ihre?[\s,!]*$
    pseq [litS "ihr", .opt (litS "e"), wcbS, .eol],
    -- ^deine?[\s,!]*$
    pseq [litS "dein", .opt (litS "e"), wcbS, .eol],
    -- ^{ENG_GER_CHARS_SPACES}*grüße{ENG_GER_CHARS_SPACES}*[\s,!]*$
    pseq [.starCls clsEngGer, litS "grüße", .starCls clsEngGer, wcbS, .eol],
    -- ^vielen?\sdank[\s,!]*$
    pseq [litS "viele", .opt (litS "n"), wsC, litS "dank", wcbS, .eol],
    -- ^danke{ENG_GER_CHARS_SPACES}*[\s,!]*$
    pseq [litS "danke", .starCls clsEngGer, wcbS, .eol],
    -- ^[a-z\s]+\ ?\/\ ?mit\ freundlichen\ grüßen[\n,!]+$
    pseq [.cls clsAlphaWs, .starCls clsAlphaWs, .opt (litS " "), litS "/", .opt (litS " "),
          litS "mit freundlichen grüßen", .cls clsNlCommaBang, .starCls clsNlCommaBang, .eol],
    -- ^mit\ freundlichen\ grüßen\ ?\/\ ?[a-z\s]+[\n,!]+$
    pseq [litS "mit freundlichen grüßen", .opt (litS " "), litS "/", .opt (litS " "),
          .cls clsAlphaWs, .starCls clsAlphaWs, .cls clsNlCommaBang, .starCls clsNlCommaBang,
          .eol] ]

/-- The one alternative of `RE_SIGNATURE` without a `^` anchor:
`die\sbesten\swünsche[\s,!]*$`. -/
def RE_SIGNATURE_unanchored : Pat :=
  pseq [litS "die", wsC, litS "besten", wsC, litS "wünsche", wcbS, .eol]

/-- The pattern `[\S]+[ ]`. -/
def phoneWordSp : Pat :=
  pseq [.cls (fun c => !isPyWs c), .starCls (fun c => !isPyWs c), litS " "]

/-- The alternatives of `RE_PHONE_SIGNATURE`, in pattern order (all are
`^`-anchored). -/
def RE_PHONE_SIGNATURE : List Pat :=
  [ -- ^sent[ ]{1}from[ ]{1}my[\s,!\w]*$
    pseq [litS "sent from my", .starCls clsPhoneTail, .eol],
    -- ^sent[ ]from[ ]Mailbox[ ]for[ ]iPhone.*$
    pseq [litS "sent from mailbox for iphone", .starAny, .eol],
    -- ^sent[ ]([\S]*[ ])?from[ ]my[ ]BlackBerry.*$
    pseq [litS "sent ", .opt (pseq [.starCls (fun c => !isPyWs c), litS " "]),
          litS "from my blackberry", .starAny, .eol],
    -- ^Enviado[ ]desde[ ]mi[ ]([\S]+[ ]){0,2}BlackBerry.*$
    pseq [litS "enviado desde mi ", .opt (.seq phoneWordSp (.opt phoneWordSp)),
          litS "blackberry", .starAny, .eol] ]

/-- In `regex.M` mode, `^` matches at the start of the text and right after
each `\n`. -/
def isLineStart (s : List Char) (p : Nat) : Bool :=
  p == 0 || s[p - 1]? == some '\n'

/-- Whether `RE_SIGNATURE` can match starting at position `p` of `s`. -/
def sigMatchAt (s : List Char) (p : Nat) : Bool :=
  (isLineStart s p && RE_SIGNATURE_anchored.any (patMatches · (s.drop p))) ||
  patMatches RE_SIGNATURE_unanchored (s.drop p)

/-- Whether `RE_PHONE_SIGNATURE` can match starting at position `p` of `s`. -/
def phoneMatchAt (s : List Char) (p : Nat) : Bool :=
  isLineStart s p && RE_PHONE_SIGNATURE.any (patMatches · (s.drop p))

/-- Python `RE_SIGNATURE.search(s)`: the start offset of the leftmost match.
Because every alternative is followed by a dot-all `.*`, the matched text
of a search that returns `some p` is exactly `s.drop p`. -/
def findSignoff (s : List Char) : Option Nat :=
  (List.range (s.length + 1)).find? (sigMatchAt s)

/-- Python `RE_PHONE_SIGNATURE.search(s)`: the start offset of the leftmost match;
the matched text is `s.drop p`. -/
def findPhone (s : List Char) : Option Nat :=
  (List.range (s.length + 1)).find? (phoneMatchAt s)

/-! ### The candidate-marker pattern `RE_SIGNATURE_CANDIDATE`

```
(?P<candidate>c+d)[^d] | (?P<candidate>c+d)$ | (?P<candidate>c+)
| (?P<candidate>d)[^d] | (?P<candidate>d)$
```
searched with Python semantics: positions are tried left to right and, at
each position, the alternatives in order.  `tryCandidateAt` returns the
span `(start, end)` of the `candidate` group of the first alternative
matching at absolute position `p` (the suffix `s = markers.drop p`); a
`c+` can only be the maximal run of `c` markers starting at the position,
since a shorter run would have to be followed by the marker `c`, failing
the `d` that each of the first two alternatives demands next. -/

def tryCandidateAt (s : List Char) (p : Nat) : Option (Nat × Nat) :=
  let k := (s.takeWhile (· == 'c')).length
  let nonDAfter : Nat → Bool := fun i =>
    match s[i]? with
    | some c => c != 'd'
    | none => false
  if k != 0 && s[k]? == some 'd' && nonDAfter (k + 1) then
    some (p, p + k + 1)
  else if k != 0 && s[k]? == some 'd' && s.length == k + 1 then
    some (p, p + k + 1)
  else if k != 0 then
    some (p, p + k)
  else if s[0]? == some 'd' && nonDAfter 1 then
    some (p, p + 1)
  else if s[0]? == some 'd' && s.length == 1 then
    some (p, p + 1)
  else
    none

def searchCandidateAux : List Char → Nat → Option (Nat × Nat)
  | [], _ => none
  | c :: rest, p =>
    match tryCandidateAt (c :: rest) p with
    | some r => some r
    | none => searchCandidateAux rest (p + 1)

/-- Python `RE_SIGNATURE_CANDIDATE.search(markers)`, returning the span of the
`candidate` group. -/
def searchCandidate (markers : List Char) : Option (Nat × Nat) :=
  searchCandidateAux markers 0

/-! ### External collaborators not present under `src/` -/

/-- Modelled from the spec: `TOO_LONG_SIGNATURE_LINE` from
`talon.signature.constants` (not in `src/`) is the configuration constant
"maximum characters for a line to still be considered a plausible
signature line"; the value used by the library is 60. -/
def TOO_LONG_SIGNATURE_LINE : Nat := 60

/-- Modelled from the spec: `get_delimiter` from `talon.utils` (not in
`src/`) detects the line-ending sequence used by the text, returning
`"\r\n"` for `"\r\n"`-style bodies and `"\n"` otherwise (the library finds
the first `\r?\n` match and defaults to `"\n"`). -/
def get_delimiter : List Char → List Char
  | [] => ['\n']
  | '\r' :: '\n' :: _ => ['\r', '\n']
  | '\n' :: _ => ['\n']
  | _ :: rest => get_delimiter rest

/-! ### The pipeline -/

/-- Indexes of the lines with non-whitespace content
(`non_empty = [i for i, line in enumerate(lines) if line.strip()]`). -/
def nonEmptyIndexes (lines : List (List Char)) : List Nat :=
  (List.range lines.length).filter (fun i => !(pyStrip (lines.getD i [])).isEmpty)

/-- The list `candidate = [i for i in non_empty if i > 0]`. -/
def candidateIndexes (lines : List (List Char)) : List Nat :=
  (nonEmptyIndexes lines).filter (fun i => decide (0 < i))

/-- Python `_mark_candidate_indexes`: one marker per candidate index — `l` for a
line whose trimmed length exceeds the threshold, `d` for a trimmed line
starting with a dash and with non-dash content remaining, `c` otherwise.
(The source fills the marker array bottom-up, but each marker depends only
on its own line, so the result is this pointwise map.) -/
def mark_candidate_indexes (lines : List (List Char)) (candidate : List Nat) : List Char :=
  candidate.map (fun i =>
    let l := pyStrip (lines.getD i [])
    if TOO_LONG_SIGNATURE_LINE < l.length then 'l'
    else if l.head? == some '-' && !(pyStripDash l).isEmpty then 'd'
    else 'c')

/-- Python `_process_marked_candidate_indexes`: run `RE_SIGNATURE_CANDIDATE`
against the markers and return
`candidate[match.start('candidate'):match.end('candidate')+1]`. -/
def process_marked_candidate_indexes (candidate : List Nat) (markers : List Char) :
    List Nat :=
  match searchCandidate markers with
  | some (a, b) => (candidate.drop a).take (b + 1 - a)
  | none => []

/-- Python `get_signature_candidate(lines)`. -/
def get_signature_candidate (lines : List (List Char)) : List (List Char) :=
  if (nonEmptyIndexes lines).length ≤ 1 then []
  else
    match process_marked_candidate_indexes (candidateIndexes lines)
        (mark_candidate_indexes lines (candidateIndexes lines)) with
    | [] => []
    | i :: _ => lines.drop i

/-- The working copy after steps 2–3: `msg_body.strip()`, truncated — when
the phone pattern matches the raw body — at the match's start offset
(an offset into the raw body, applied to the trimmed copy, exactly as the
source does). -/
def strippedBody (body : List Char) : List Char :=
  match findPhone body with
  | some p => (pyStrip body).take p
  | none => pyStrip body

/-- The phone signature captured in step 3 (`phone_signature.group()`). -/
def phoneSigOf (body : List Char) : Option (List Char) :=
  (findPhone body).map (body.drop ·)

/-- Step 4: `lines = stripped_body.splitlines()`. -/
def linesOf (body : List Char) : List (List Char) :=
  pySplitlines (strippedBody body)

/-- The string `candidate = delimiter.join(get_signature_candidate(lines))`. -/
def candidateText (body : List Char) : List Char :=
  joinWith (get_delimiter body) (get_signature_candidate (linesOf body))

/-- The body of the `try` block of `extract_signature`. -/
def extractPipeline (body : List Char) : List Char × Option (List Char) :=
  match findSignoff (candidateText body) with
  | none => (pyStrip (strippedBody body), phoneSigOf body)
  | some m =>
    let signature := (candidateText body).drop m
    let joined := joinWith (get_delimiter body) (linesOf body)
    let strippedBody2 := joined.take (joined.length - signature.length)
    let signature2 :=
      match phoneSigOf body with
      | some ph => joinWith (get_delimiter body) [signature, ph]
      | none => signature
    (pyStrip strippedBody2, some (pyStrip signature2))

/-- The whole `try` block as a fallible computation: every step of the
embedding is total, so it always succeeds. -/
def extractSignatureCore (body : List Char) :
    Except String (List Char × Option (List Char)) :=
  Except.ok (extractPipeline body)

/-- The `except Exception` handler: any error degrades to the original,
untouched body with an absent signature. -/
def exceptFallback (body : List Char)
    (r : Except String (List Char × Option (List Char))) :
    List Char × Option (List Char) :=
  match r with
  | .ok p => p
  | .error _ => (body, none)

/-- Python `extract_signature(msg_body)`. -/
def extract_signature (body : List Char) : List Char × Option (List Char) :=
  exceptFallback body (extractSignatureCore body)

/-- The lines of `ls` with non-whitespace content ("non-empty lines" in the
source's sense: `line.strip()` is truthy). -/
def contentLines (ls : List (List Char)) : List (List Char) :=
  ls.filter (fun x => !(pyStrip x).isEmpty)

/-- The text has no trailing empty lines (indeed it does not even end in a
whitespace character). -/
def noTrailingWhitespace (b : List Char) : Bool :=
  match b.getLast? with
  | some c => !isPyWs c
  | none => true

/-! ## Basic lemmas about the string primitives -/

theorem isPyWs_of_isLineBoundary {c : Char} (h : isLineBoundary c = true) :
    isPyWs c = true := by
  simp only [isLineBoundary, Bool.or_eq_true, beq_iff_eq] at h
  rcases h with (((((((((h | h) | h) | h) | h) | h) | h) | h) | h) | h) <;>
    subst h <;> decide

theorem rdropWs_eq_nil_iff {l : List Char} :
    rdropWs l = [] ↔ ∀ c ∈ l, isPyWs c = true := by
  unfold rdropWs
  rw [List.reverse_eq_nil_iff, List.dropWhile_eq_nil_iff]
  constructor
  · intro h c hc
    exact h c (List.mem_reverse.mpr hc)
  · intro h c hc
    exact h c (List.mem_reverse.mp hc)

theorem mem_of_mem_dropWhile {p : Char → Bool} {l : List Char} {c : Char}
    (hc : c ∈ l.dropWhile p) : c ∈ l := by
  have h2 := List.takeWhile_append_dropWhile p l
  rw [← h2]
  exact List.mem_append.mpr (Or.inr hc)

theorem pyStrip_eq_nil_iff {l : List Char} :
    pyStrip l = [] ↔ ∀ c ∈ l, isPyWs c = true := by
  unfold pyStrip
  rw [rdropWs_eq_nil_iff]
  constructor
  · intro h c hc
    by_cases hw : isPyWs c = true
    · exact hw
    · have hmem : c ∈ l.dropWhile isPyWs := by
        have h2 := List.takeWhile_append_dropWhile isPyWs l
        rcases List.mem_append.mp (h2 ▸ hc) with h1 | h1
        · exact absurd (List.mem_takeWhile_imp h1) hw
        · exact h1
      exact h c hmem
  · intro h c hc
    exact h c (mem_of_mem_dropWhile hc)

theorem pyStrip_cons_ws {c : Char} {l : List Char} (h : isPyWs c = true) :
    pyStrip (c :: l) = pyStrip l := by
  unfold pyStrip
  rw [List.dropWhile_cons_of_pos h]

theorem rdropWs_prefixOf (l : List Char) : rdropWs l <+: l := by
  unfold rdropWs
  have h := List.dropWhile_suffix (l := l.reverse) (p := isPyWs)
  have h2 := h.reverse
  simpa using h2

theorem pyStrip_cons_not_ws {c : Char} {l : List Char} (h : isPyWs c = false) :
    pyStrip (c :: l) = rdropWs (c :: l) := by
  unfold pyStrip
  rw [List.dropWhile_cons_of_neg (by simp [h])]

theorem rdropWs_append_ws {a w : List Char} (h : ∀ c ∈ w, isPyWs c = true) :
    rdropWs (a ++ w) = rdropWs a := by
  unfold rdropWs
  rw [List.reverse_append, List.dropWhile_append]
  have hw : w.reverse.dropWhile isPyWs = [] := by
    rw [List.dropWhile_eq_nil_iff]
    intro c hc
    exact h c (List.mem_reverse.mp hc)
  simp [hw]

theorem rdropWs_append_decomp (l : List Char) :
    ∃ w, l = rdropWs l ++ w ∧ ∀ c ∈ w, isPyWs c = true := by
  refine ⟨(l.reverse.takeWhile isPyWs).reverse, ?_, ?_⟩
  · unfold rdropWs
    rw [← List.reverse_append, List.takeWhile_append_dropWhile, List.reverse_reverse]
  · intro c hc
    exact List.mem_takeWhile_imp (List.mem_reverse.mp hc)

theorem dropWhile_head_not {p : Char → Bool} :
    ∀ {l t : List Char} {c : Char}, l.dropWhile p = c :: t → p c = false := by
  intro l
  induction l with
  | nil => intro t c h; simp at h
  | cons a as ih =>
    intro t c h
    by_cases hp : p a = true
    · rw [List.dropWhile_cons_of_pos hp] at h
      exact ih h
    · rw [List.dropWhile_cons_of_neg hp] at h
      cases h
      simpa using hp

theorem pyStrip_head_not_ws {l t : List Char} {c : Char}
    (h : pyStrip l = c :: t) : isPyWs c = false := by
  have hpre : rdropWs (l.dropWhile isPyWs) <+: l.dropWhile isPyWs :=
    rdropWs_prefixOf _
  unfold pyStrip at h
  rw [h] at hpre
  rcases hpre with ⟨r, hr⟩
  exact dropWhile_head_not (l := l) (t := t ++ r) (by rw [← hr]; simp)

theorem rdropWs_idem (l : List Char) : rdropWs (rdropWs l) = rdropWs l := by
  unfold rdropWs
  rw [List.reverse_reverse, List.dropWhile_idempotent]

theorem rdropWs_pyStrip (l : List Char) : rdropWs (pyStrip l) = pyStrip l := by
  unfold pyStrip
  exact rdropWs_idem _

theorem pyStrip_idem (l : List Char) : pyStrip (pyStrip l) = pyStrip l := by
  rcases h : pyStrip l with _ | ⟨c, t⟩
  · rfl
  · have hc : isPyWs c = false := pyStrip_head_not_ws h
    rw [pyStrip_cons_not_ws hc, ← h, rdropWs_pyStrip]

theorem rdropWs_of_last_not_ws {l : List Char} {c : Char}
    (h : l.getLast? = some c) (hw : isPyWs c = false) : rdropWs l = l := by
  unfold rdropWs
  have hh : l.reverse.head? = some c := by rw [List.head?_reverse]; exact h
  rcases hr : l.reverse with _ | ⟨a, as⟩
  · rw [hr] at hh; simp at hh
  · rw [hr] at hh
    simp only [List.head?_cons, Option.some.injEq] at hh
    subst hh
    have hl : l = (a :: as).reverse := by rw [← hr, List.reverse_reverse]
    have hdw : List.dropWhile isPyWs (a :: as) = a :: as :=
      List.dropWhile_cons_of_neg (by simp [hw])
    rw [hdw, ← hl]

theorem pyStrip_last_not_ws {l : List Char} {c : Char}
    (h : (pyStrip l).getLast? = some c) : isPyWs c = false := by
  unfold pyStrip rdropWs at h
  rw [List.getLast?_reverse] at h
  rcases hd : ((l.dropWhile isPyWs).reverse.dropWhile isPyWs) with _ | ⟨a, as⟩
  · rw [hd] at h; simp at h
  · rw [hd] at h
    simp only [List.head?_cons, Option.some.injEq] at h
    subst h
    exact dropWhile_head_not hd

theorem pyStrip_of_last_not_ws {l : List Char} {c : Char}
    (h : l.getLast? = some c) (hw : isPyWs c = false) :
    pyStrip l = l.dropWhile isPyWs := by
  unfold pyStrip
  rcases hd : l.dropWhile isPyWs with _ | ⟨a, as⟩
  · rfl
  · rw [← hd]
    refine rdropWs_of_last_not_ws (c := c) ?_ hw
    have hor : l.getLast? = (l.dropWhile isPyWs).getLast?.or
        (l.takeWhile isPyWs).getLast? := by
      conv_lhs => rw [← List.takeWhile_append_dropWhile isPyWs l]
      exact List.getLast?_append
    have hne : (l.dropWhile isPyWs).getLast? ≠ none := by
      rw [hd]; simp
    rcases ho : (l.dropWhile isPyWs).getLast? with _ | b
    · exact absurd ho hne
    · rw [hor, ho] at h
      simp only [Option.or_some, Option.some.injEq] at h
      rw [h]

theorem takeWhile_ws_decomp (l : List Char) :
    l = l.takeWhile isPyWs ++ l.dropWhile isPyWs ∧
      ∀ c ∈ l.takeWhile isPyWs, isPyWs c = true :=
  ⟨(List.takeWhile_append_dropWhile isPyWs l).symm,
   fun _ hc => List.mem_takeWhile_imp hc⟩

/-! ## Lemmas about `pySplitlines` and `joinWith` -/

theorem pySplitlines_rn (rest : List Char) :
    pySplitlines ('\r' :: '\n' :: rest) = [] :: pySplitlines rest := by
  rw [pySplitlines.eq_def]
  simp

theorem pySplitlines_nil : pySplitlines [] = [] := by
  rw [pySplitlines.eq_def]

theorem pySplitlines_r_nil : pySplitlines ['\r'] = [[]] := by
  rw [pySplitlines.eq_def]
  simp

theorem pySplitlines_r_cons {c2 : Char} {rest2 : List Char} (h : c2 ≠ '\n') :
    pySplitlines ('\r' :: c2 :: rest2) = [] :: pySplitlines (c2 :: rest2) := by
  rw [pySplitlines.eq_def]
  simp [h]

theorem pySplitlines_cons_boundary {c : Char} {rest : List Char} (h1 : c ≠ '\r')
    (hb : isLineBoundary c = true) :
    pySplitlines (c :: rest) = [] :: pySplitlines rest := by
  rw [pySplitlines.eq_def]
  simp [h1, hb]

theorem pySplitlines_cons_content {c : Char} {rest : List Char}
    (hb : isLineBoundary c = false) :
    pySplitlines (c :: rest) = match pySplitlines rest with
      | [] => [[c]]
      | l :: ls => (c :: l) :: ls := by
  have h1 : c ≠ '\r' := by
    intro h; subst h; simp [isLineBoundary] at hb
  rw [pySplitlines.eq_def]
  simp [h1, hb]

theorem pySplitlines_ne_nil {c : Char} {rest : List Char} :
    pySplitlines (c :: rest) ≠ [] := by
  by_cases h1 : c = '\r'
  · subst h1
    cases rest with
    | nil => rw [pySplitlines_r_nil]; simp
    | cons c2 r2 =>
      by_cases h2 : c2 = '\n'
      · subst h2; rw [pySplitlines_rn]; simp
      · rw [pySplitlines_r_cons h2]; simp
  · by_cases h2 : isLineBoundary c = true
    · rw [pySplitlines_cons_boundary h1 h2]; simp
    · rw [pySplitlines_cons_content (by simpa using h2)]
      split <;> simp

theorem pySplitlines_eq_nil_iff {s : List Char} : pySplitlines s = [] ↔ s = [] := by
  constructor
  · intro h
    cases s with
    | nil => rfl
    | cons c rest => exact absurd h pySplitlines_ne_nil
  · intro h; subst h; rfl

theorem no_boundary_of_mem_lines {s : List Char} :
    ∀ x ∈ pySplitlines s, ∀ c ∈ x, isLineBoundary c = false := by
  induction s using pySplitlines.induct with
  | case1 =>
    rw [pySplitlines_nil]
    intro x hx
    exact absurd hx (by simp)
  | case2 =>
    rw [pySplitlines_r_nil]
    intro x hx c hc
    rcases List.mem_singleton.mp hx with h
    subst h
    exact absurd hc (by simp)
  | case3 rest2 ih =>
    rw [pySplitlines_rn]
    intro x hx c hc
    rcases List.mem_cons.mp hx with h | h
    · subst h; simp at hc
    · exact ih x h c hc
  | case4 c2 rest2 hn ih =>
    rw [pySplitlines_r_cons hn]
    intro x hx c hc
    rcases List.mem_cons.mp hx with h | h
    · subst h; simp at hc
    · exact ih x h c hc
  | case5 c rest hr hb ih =>
    rw [pySplitlines_cons_boundary hr hb]
    intro x hx ch hch
    rcases List.mem_cons.mp hx with h | h
    · subst h; simp at hch
    · exact ih x h ch hch
  | case6 c rest hr hb hsp ih =>
    rw [pySplitlines_cons_content (by simpa using hb), hsp]
    intro x hx ch hch
    rcases List.mem_cons.mp hx with h | h
    · subst h
      rcases List.mem_singleton.mp hch with h2
      subst h2; simpa using hb
    · simp at h
  | case7 c rest hr hb l ls hsp ih =>
    rw [pySplitlines_cons_content (by simpa using hb), hsp]
    intro x hx ch hch
    rcases List.mem_cons.mp hx with h | h
    · subst h
      rcases List.mem_cons.mp hch with h2 | h2
      · subst h2; simpa using hb
      · exact ih l (by rw [hsp]; exact List.mem_cons_self _ _) ch h2
    · exact ih x (by rw [hsp]; exact List.mem_cons_of_mem _ h) ch hch

theorem pySplitlines_no_boundary {s : List Char} (hne : s ≠ [])
    (h : ∀ c ∈ s, isLineBoundary c = false) : pySplitlines s = [s] := by
  induction s using pySplitlines.induct with
  | case1 => exact absurd rfl hne
  | case2 => exact absurd (h '\r' (by simp)) (by simp [isLineBoundary])
  | case3 rest2 ih => exact absurd (h '\r' (by simp)) (by simp [isLineBoundary])
  | case4 c2 rest2 hn ih => exact absurd (h '\r' (by simp)) (by simp [isLineBoundary])
  | case5 c rest hr hb ih => exact absurd (h c (by simp)) (by simp [hb])
  | case6 c rest hr hb hsp ih =>
    have hrest : rest = [] := pySplitlines_eq_nil_iff.mp hsp
    subst hrest
    rw [pySplitlines_cons_content (by simpa using hb)]
    rfl
  | case7 c rest hr hb l ls hsp ih =>
    have hrest : rest ≠ [] := by
      intro h2; subst h2; simp [pySplitlines] at hsp
    have ihe : pySplitlines rest = [rest] :=
      ih hrest (fun ch hch => h ch (List.mem_cons_of_mem _ hch))
    rw [pySplitlines_cons_content (by simpa using hb), ihe]

theorem pySplitlines_decomp {s l0 : List Char} {ls : List (List Char)}
    (h : pySplitlines s = l0 :: ls) :
    ∃ t r, s = l0 ++ t ++ r ∧ pySplitlines r = ls ∧
      ∀ c ∈ t, isLineBoundary c = true := by
  induction s using pySplitlines.induct generalizing l0 ls with
  | case1 => rw [pySplitlines_nil] at h; exact absurd h (by simp)
  | case2 =>
    rw [pySplitlines_r_nil] at h
    injection h with h1 h2
    subst h1
    refine ⟨['\r'], [], by simp, by simp [pySplitlines, ← h2], ?_⟩
    intro c hc
    rcases List.mem_singleton.mp hc with h3
    subst h3; decide
  | case3 rest2 ih =>
    rw [pySplitlines_rn] at h
    injection h with h1 h2
    subst h1
    refine ⟨['\r', '\n'], rest2, by simp, h2, ?_⟩
    intro c hc
    rcases List.mem_cons.mp hc with h3 | h3
    · subst h3; decide
    · rcases List.mem_singleton.mp h3 with h4
      subst h4; decide
  | case4 c2 rest2 hn ih =>
    rw [pySplitlines_r_cons hn] at h
    injection h with h1 h2
    subst h1
    refine ⟨['\r'], c2 :: rest2, by simp, h2, ?_⟩
    intro c hc
    rcases List.mem_singleton.mp hc with h3
    subst h3; decide
  | case5 c rest hr hb ih =>
    rw [pySplitlines_cons_boundary hr hb] at h
    injection h with h1 h2
    subst h1
    refine ⟨[c], rest, by simp, h2, ?_⟩
    intro ch hch
    rcases List.mem_singleton.mp hch with h3
    subst h3; exact hb
  | case6 c rest hr hb hsp ih =>
    have hrest : rest = [] := pySplitlines_eq_nil_iff.mp hsp
    subst hrest
    rw [pySplitlines_cons_content (by simpa using hb)] at h
    simp only [pySplitlines] at h
    injection h with h1 h2
    subst h1
    exact ⟨[], [], by simp, by simp [pySplitlines, ← h2], by simp⟩
  | case7 c rest hr hb l ls2 hsp ih =>
    rw [pySplitlines_cons_content (by simpa using hb), hsp] at h
    injection h with h1 h2
    subst h1
    obtain ⟨t, r, hs, hrl, hbt⟩ := ih hsp
    refine ⟨t, r, ?_, by rw [hrl, h2], hbt⟩
    rw [List.cons_append, List.cons_append, ← hs]

theorem all_ws_of_lines_stripped_nil {s : List Char}
    (h : ∀ x ∈ pySplitlines s, pyStrip x = []) : ∀ c ∈ s, isPyWs c = true := by
  induction s using pySplitlines.induct with
  | case1 => simp
  | case2 =>
    intro c hc
    rcases List.mem_singleton.mp hc with h1
    subst h1; decide
  | case3 rest2 ih =>
    rw [pySplitlines_rn] at h
    intro c hc
    rcases List.mem_cons.mp hc with h1 | h1
    · subst h1; decide
    · rcases List.mem_cons.mp h1 with h2 | h2
      · subst h2; decide
      · exact ih (fun x hx => h x (List.mem_cons_of_mem _ hx)) c h2
  | case4 c2 rest2 hn ih =>
    rw [pySplitlines_r_cons hn] at h
    intro c hc
    rcases List.mem_cons.mp hc with h1 | h1
    · subst h1; decide
    · exact ih (fun x hx => h x (List.mem_cons_of_mem _ hx)) c h1
  | case5 c rest hr hb ih =>
    rw [pySplitlines_cons_boundary hr hb] at h
    intro ch hch
    rcases List.mem_cons.mp hch with h1 | h1
    · subst h1; exact isPyWs_of_isLineBoundary hb
    · exact ih (fun x hx => h x (List.mem_cons_of_mem _ hx)) ch h1
  | case6 c rest hr hb hsp ih =>
    have hrest : rest = [] := pySplitlines_eq_nil_iff.mp hsp
    subst hrest
    rw [pySplitlines_cons_content (by simpa using hb)] at h
    simp only [pySplitlines] at h
    intro ch hch
    rcases List.mem_cons.mp hch with h1 | h1
    · subst h1
      have h2 := h [ch] (by simp)
      exact pyStrip_eq_nil_iff.mp h2 ch (by simp)
    · simp at h1
  | case7 c rest hr hb l ls hsp ih =>
    rw [pySplitlines_cons_content (by simpa using hb), hsp] at h
    have h1 : pyStrip (c :: l) = [] := h _ (List.mem_cons_self _ _)
    have hcl : ∀ ch ∈ c :: l, isPyWs ch = true := pyStrip_eq_nil_iff.mp h1
    have hrest : ∀ x ∈ pySplitlines rest, pyStrip x = [] := by
      rw [hsp]
      intro x hx
      rcases List.mem_cons.mp hx with h2 | h2
      · subst h2
        exact pyStrip_eq_nil_iff.mpr (fun ch hch => hcl ch (List.mem_cons_of_mem _ hch))
      · exact h x (List.mem_cons_of_mem _ h2)
    intro ch hch
    rcases List.mem_cons.mp hch with h2 | h2
    · subst h2; exact hcl ch (List.mem_cons_self _ _)
    · exact ih hrest ch h2

theorem joinWith_cons_cons (d x y : List Char) (t : List (List Char)) :
    joinWith d (x :: y :: t) = x ++ d ++ joinWith d (y :: t) := rfl

theorem joinWith_cons_head (d x : List Char) (c : Char) (t : List (List Char)) :
    joinWith d ((c :: x) :: t) = c :: joinWith d (x :: t) := by
  cases t with
  | nil => rfl
  | cons y t2 => simp [joinWith_cons_cons]

theorem joinWith_append (d : List Char) {xs ys : List (List Char)}
    (hx : xs ≠ []) (hy : ys ≠ []) :
    joinWith d (xs ++ ys) = joinWith d xs ++ d ++ joinWith d ys := by
  induction xs with
  | nil => exact absurd rfl hx
  | cons x xs ih =>
    cases xs with
    | nil =>
      cases ys with
      | nil => exact absurd rfl hy
      | cons y t => simp [joinWith_cons_cons, joinWith]
    | cons x2 xs2 =>
      have h2 : (x2 :: xs2 : List (List Char)) ≠ [] := by simp
      calc joinWith d ((x :: x2 :: xs2) ++ ys)
          = x ++ d ++ joinWith d ((x2 :: xs2) ++ ys) := rfl
        _ = x ++ d ++ (joinWith d (x2 :: xs2) ++ d ++ joinWith d ys) := by
            rw [ih h2]
        _ = joinWith d (x :: x2 :: xs2) ++ d ++ joinWith d ys := by
            rw [joinWith_cons_cons]; simp [List.append_assoc]

/-- Joining the split lines with `"\n"` restores the text, provided every
line boundary in the text is a plain `\n` and the text does not end with
one. -/
theorem joinWith_pySplitlines {s : List Char}
    (hb : ∀ c ∈ s, isLineBoundary c = true → c = '\n')
    (hl : s.getLast? ≠ some '\n') :
    joinWith ['\n'] (pySplitlines s) = s := by
  induction s using pySplitlines.induct with
  | case1 => rfl
  | case2 => exact absurd (hb '\r' (by simp) (by decide)) (by decide)
  | case3 rest2 ih => exact absurd (hb '\r' (by simp) (by decide)) (by decide)
  | case4 c2 rest2 hn ih => exact absurd (hb '\r' (by simp) (by decide)) (by decide)
  | case5 c rest hr hbd ih =>
    have hcn : c = '\n' := hb c (by simp) hbd
    subst hcn
    rw [pySplitlines_cons_boundary hr hbd]
    cases rest with
    | nil => simp at hl
    | cons r rs =>
      rcases e : pySplitlines (r :: rs) with _ | ⟨a, as⟩
      · exact absurd e pySplitlines_ne_nil
      · have ihe : joinWith ['\n'] (pySplitlines (r :: rs)) = r :: rs := by
          refine ih (fun ch hch h2 => hb ch (List.mem_cons_of_mem _ hch) h2) ?_
          rw [show ('\n' :: r :: rs).getLast? = (r :: rs).getLast? from
            List.getLast?_cons_cons] at hl
          exact hl
        rw [e] at ihe
        rw [joinWith_cons_cons]
        simp only [List.nil_append]
        rw [ihe]
        rfl
  | case6 c rest hr hbd hsp ih =>
    have hrest : rest = [] := pySplitlines_eq_nil_iff.mp hsp
    subst hrest
    rw [pySplitlines_cons_content (by simpa using hbd)]
    rfl
  | case7 c rest hr hbd l ls hsp ih =>
    have hrest : rest ≠ [] := by
      intro h2; subst h2; rw [pySplitlines_nil] at hsp; exact absurd hsp (by simp)
    have ihe : joinWith ['\n'] (pySplitlines rest) = rest := by
      refine ih (fun ch hch h2 => hb ch (List.mem_cons_of_mem _ hch) h2) ?_
      rcases rest with _ | ⟨r, rs⟩
      · exact absurd rfl hrest
      · rw [show (c :: r :: rs).getLast? = (r :: rs).getLast? from
          List.getLast?_cons_cons] at hl
        exact hl
    rw [pySplitlines_cons_content (by simpa using hbd), hsp]
    rw [hsp] at ihe
    rw [joinWith_cons_head, ihe]

theorem pySplitOn_nil (sep : Char) : pySplitOn sep [] = [[]] := by
  rw [pySplitOn.eq_def]

theorem pySplitOn_cons_sep {sep : Char} {rest : List Char} :
    pySplitOn sep (sep :: rest) = [] :: pySplitOn sep rest := by
  rw [pySplitOn.eq_def]
  simp

theorem pySplitOn_cons_not_sep {sep c : Char} {rest : List Char} (h : c ≠ sep) :
    pySplitOn sep (c :: rest) = match pySplitOn sep rest with
      | [] => [[c]]
      | l :: ls => (c :: l) :: ls := by
  rw [pySplitOn.eq_def]
  simp [h]

theorem pySplitOn_ne_nil {sep : Char} {s : List Char} : pySplitOn sep s ≠ [] := by
  cases s with
  | nil => simp [pySplitOn]
  | cons c rest =>
    rw [pySplitOn.eq_def]
    split
    · simp
    · rename_i c2 r2 heq
      split
      · simp
      · split <;> simp

/-- On texts whose only line boundaries are `\n` and which do not end with
`\n`, `splitlines` coincides with splitting on the delimiter `"\n"`. -/
theorem pySplitlines_eq_pySplitOn {s : List Char} (hs : s ≠ [])
    (hb : ∀ c ∈ s, isLineBoundary c = true → c = '\n')
    (hl : s.getLast? ≠ some '\n') :
    pySplitlines s = pySplitOn '\n' s := by
  induction s using pySplitlines.induct with
  | case1 => exact absurd rfl hs
  | case2 => exact absurd (hb '\r' (by simp) (by decide)) (by decide)
  | case3 rest2 ih => exact absurd (hb '\r' (by simp) (by decide)) (by decide)
  | case4 c2 rest2 hn ih => exact absurd (hb '\r' (by simp) (by decide)) (by decide)
  | case5 c rest hr hbd ih =>
    have hcn : c = '\n' := hb c (by simp) hbd
    subst hcn
    rw [pySplitlines_cons_boundary hr hbd, pySplitOn_cons_sep]
    cases rest with
    | nil => simp at hl
    | cons r rs =>
      have ihe : pySplitlines (r :: rs) = pySplitOn '\n' (r :: rs) := by
        refine ih (by simp) (fun ch hch h2 => hb ch (List.mem_cons_of_mem _ hch) h2) ?_
        rw [show ('\n' :: r :: rs).getLast? = (r :: rs).getLast? from
          List.getLast?_cons_cons] at hl
        exact hl
      rw [ihe]
  | case6 c rest hr hbd hsp ih =>
    have hrest : rest = [] := pySplitlines_eq_nil_iff.mp hsp
    subst hrest
    have hcn : c ≠ '\n' := by
      intro h2; subst h2; simp [isLineBoundary] at hbd
    rw [pySplitlines_cons_content (by simpa using hbd)]
    rw [pySplitOn_cons_not_sep hcn, pySplitOn_nil, pySplitlines_nil]
  | case7 c rest hr hbd l ls hsp ih =>
    have hrest : rest ≠ [] := by
      intro h2; subst h2; rw [pySplitlines_nil] at hsp; exact absurd hsp (by simp)
    have hcn : c ≠ '\n' := by
      intro h2; subst h2; simp [isLineBoundary] at hbd
    have ihe : pySplitlines rest = pySplitOn '\n' rest := by
      refine ih hrest (fun ch hch h2 => hb ch (List.mem_cons_of_mem _ hch) h2) ?_
      rcases rest with _ | ⟨r, rs⟩
      · exact absurd rfl hrest
      · rw [show (c :: r :: rs).getLast? = (r :: rs).getLast? from
          List.getLast?_cons_cons] at hl
        exact hl
    rw [pySplitlines_cons_content (by simpa using hbd), hsp]
    rw [pySplitOn_cons_not_sep hcn, ← ihe, hsp]

theorem pyStrip_nil : pyStrip [] = [] := rfl

theorem contentLines_cons_of_blank {x : List Char} {xs : List (List Char)}
    (h : pyStrip x = []) : contentLines (x :: xs) = contentLines xs := by
  unfold contentLines
  rw [List.filter_cons, if_neg (by simp [h])]

theorem contentLines_cons_of_content {x : List Char} {xs : List (List Char)}
    (h : pyStrip x ≠ []) : contentLines (x :: xs) = x :: contentLines xs := by
  unfold contentLines
  rw [List.filter_cons, if_pos (by simp [h])]

/-- When the split of a text has exactly one line with content, stripping
the text equals stripping that line. -/
theorem pyStrip_eq_of_unique_content {s : List Char} :
    ∀ {l : List Char}, contentLines (pySplitlines s) = [l] →
      pyStrip s = pyStrip l := by
  induction s using pySplitlines.induct with
  | case1 =>
    intro l h
    rw [pySplitlines_nil] at h
    exact absurd h (by simp [contentLines])
  | case2 =>
    intro l h
    rw [pySplitlines_r_nil, contentLines_cons_of_blank pyStrip_nil] at h
    exact absurd h (by simp [contentLines])
  | case3 rest2 ih =>
    intro l h
    rw [pySplitlines_rn, contentLines_cons_of_blank pyStrip_nil] at h
    rw [pyStrip_cons_ws (by decide), pyStrip_cons_ws (by decide)]
    exact ih h
  | case4 c2 rest2 hn ih =>
    intro l h
    rw [pySplitlines_r_cons hn, contentLines_cons_of_blank pyStrip_nil] at h
    rw [pyStrip_cons_ws (by decide)]
    exact ih h
  | case5 c rest hr hbd ih =>
    intro l h
    rw [pySplitlines_cons_boundary hr hbd, contentLines_cons_of_blank pyStrip_nil] at h
    rw [pyStrip_cons_ws (isPyWs_of_isLineBoundary hbd)]
    exact ih h
  | case6 c rest hr hbd hsp ih =>
    intro l h
    have hrest : rest = [] := pySplitlines_eq_nil_iff.mp hsp
    subst hrest
    rw [pySplitlines_cons_content (by simpa using hbd)] at h
    rw [pySplitlines_nil] at h
    by_cases hc : pyStrip [c] = []
    · rw [contentLines_cons_of_blank hc] at h
      exact absurd h (by simp [contentLines])
    · rw [contentLines_cons_of_content hc] at h
      injection h with h1 h2
      rw [h1]
  | case7 c rest hr hbd l0 ls hsp ih =>
    intro l h
    rw [pySplitlines_cons_content (by simpa using hbd), hsp] at h
    by_cases hw : isPyWs c = true
    · -- leading character is whitespace: it changes neither side
      have e1 : pyStrip (c :: l0) = pyStrip l0 := pyStrip_cons_ws hw
      have e2 : pyStrip (c :: rest) = pyStrip rest := pyStrip_cons_ws hw
      by_cases hcl : pyStrip l0 = []
      · rw [contentLines_cons_of_blank (by rw [e1, hcl])] at h
        have h3 : contentLines (pySplitlines rest) = [l] := by
          rw [hsp, contentLines_cons_of_blank hcl]
          exact h
        rw [e2]
        exact ih h3
      · rw [contentLines_cons_of_content (by rw [e1]; exact hcl)] at h
        injection h with h1 h2
        have h3 : contentLines (pySplitlines rest) = [l0] := by
          rw [hsp, contentLines_cons_of_content hcl, h2]
        rw [e2, ih h3, ← e1, h1]
    · -- leading character is content: the first line is the content line
      have hwf : isPyWs c = false := by simpa using hw
      have hne2 : pyStrip (c :: l0) ≠ [] := by
        intro h2
        exact absurd (pyStrip_eq_nil_iff.mp h2 c (by simp)) (by simp [hwf])
      rw [contentLines_cons_of_content hne2] at h
      injection h with h1 h2
      obtain ⟨t, r, hsdec, hrl, hbt⟩ := pySplitlines_decomp hsp
      have hrall : ∀ ch ∈ r, isPyWs ch = true := by
        apply all_ws_of_lines_stripped_nil
        rw [hrl]
        intro x hx
        have := List.filter_eq_nil_iff.mp h2 x hx
        simpa using this
      have htall : ∀ ch ∈ t, isPyWs ch = true :=
        fun ch hch => isPyWs_of_isLineBoundary (hbt ch hch)
      have hwall : ∀ ch ∈ t ++ r, isPyWs ch = true := by
        intro ch hch
        rcases List.mem_append.mp hch with h3 | h3
        · exact htall ch h3
        · exact hrall ch h3
      rw [← h1]
      rw [pyStrip_cons_not_ws hwf, pyStrip_cons_not_ws hwf]
      have : (c :: rest) = (c :: l0) ++ (t ++ r) := by
        rw [hsdec]; simp
      rw [this, rdropWs_append_ws hwall]

/-! ## Structural lemmas about the pipeline -/

theorem anchored_not_match_empty :
    RE_SIGNATURE_anchored.any (patMatches · []) = false := by decide

theorem unanchored_not_match_empty :
    patMatches RE_SIGNATURE_unanchored [] = false := by decide

theorem sigMatchAt_of_ge {s : List Char} {p : Nat} (h : s.length ≤ p) :
    sigMatchAt s p = false := by
  unfold sigMatchAt
  rw [List.drop_eq_nil_of_le h]
  rw [anchored_not_match_empty, unanchored_not_match_empty]
  simp

theorem findSignoff_lt {s : List Char} {m : Nat} (h : findSignoff s = some m) :
    m < s.length := by
  have h1 : sigMatchAt s m = true := List.find?_some h
  by_contra h2
  rw [sigMatchAt_of_ge (Nat.le_of_not_lt h2)] at h1
  exact absurd h1 (by simp)

theorem findSignoff_nil : findSignoff [] = none := by decide

theorem process_marked_subset {cand : List Nat} {markers : List Char} :
    ∀ i ∈ process_marked_candidate_indexes cand markers, i ∈ cand := by
  unfold process_marked_candidate_indexes
  split
  · rename_i a b
    intro i hi
    exact ((List.take_sublist _ _).trans (List.drop_sublist _ _)).subset hi
  · intro i hi
    simp at hi

theorem mem_candidateIndexes {ls : List (List Char)} {i : Nat}
    (h : i ∈ candidateIndexes ls) : 0 < i ∧ i < ls.length := by
  unfold candidateIndexes at h
  have h1 := List.mem_filter.mp h
  have h2 := List.mem_filter.mp h1.1
  refine ⟨by simpa using h1.2, ?_⟩
  exact List.mem_range.mp h2.1

theorem get_signature_candidate_shape (ls : List (List Char)) :
    get_signature_candidate ls = [] ∨
      ∃ i, 0 < i ∧ i < ls.length ∧ get_signature_candidate ls = ls.drop i := by
  unfold get_signature_candidate
  split
  · exact Or.inl rfl
  · split
    · exact Or.inl rfl
    · rename_i i rest heq
      have hi : i ∈ candidateIndexes ls :=
        process_marked_subset i (heq ▸ List.mem_cons_self i rest)
      obtain ⟨h1, h2⟩ := mem_candidateIndexes hi
      exact Or.inr ⟨i, h1, h2, rfl⟩

theorem strippedBody_phone {body : List Char} {p : Nat} (hp : findPhone body = some p) :
    strippedBody body = (pyStrip body).take p := by
  unfold strippedBody
  rw [hp]

theorem strippedBody_no_phone {body : List Char} (hp : findPhone body = none) :
    strippedBody body = pyStrip body := by
  unfold strippedBody
  rw [hp]

theorem strippedBody_head {body : List Char} (h : strippedBody body ≠ []) :
    ∃ c t, strippedBody body = c :: t ∧ isPyWs c = false := by
  rcases hp : findPhone body with _ | p
  · rw [strippedBody_no_phone hp] at h ⊢
    rcases hps : pyStrip body with _ | ⟨c, t⟩
    · exact absurd hps h
    · exact ⟨c, t, rfl, pyStrip_head_not_ws hps⟩
  · rw [strippedBody_phone hp] at h ⊢
    rcases hps : pyStrip body with _ | ⟨c, t⟩
    · simp [hps] at h
    · cases p with
      | zero => simp at h
      | succ n => exact ⟨c, t.take n, by simp, pyStrip_head_not_ws hps⟩

theorem pySplitlines_head_of_not_boundary {c : Char} {rest : List Char}
    (hc : isLineBoundary c = false) :
    ∃ l0 ls, pySplitlines (c :: rest) = (c :: l0) :: ls := by
  rw [pySplitlines_cons_content hc]
  rcases h : pySplitlines rest with _ | ⟨l, ls⟩
  · exact ⟨[], [], rfl⟩
  · exact ⟨l, ls, rfl⟩

theorem get_delimiter_ne_nil (s : List Char) : get_delimiter s ≠ [] := by
  induction s using get_delimiter.induct with
  | case1 => simp [get_delimiter]
  | case2 => simp [get_delimiter]
  | case3 => simp [get_delimiter]
  | case4 c rest h1 h2 ih =>
    rw [get_delimiter.eq_def]
    split <;> simp_all

theorem phoneSigOf_none {body : List Char} (h : findPhone body = none) :
    phoneSigOf body = none := by
  unfold phoneSigOf
  rw [h]
  rfl

theorem extract_signature_none_branch {body : List Char}
    (h : findSignoff (candidateText body) = none) :
    extract_signature body = (pyStrip (strippedBody body), phoneSigOf body) := by
  unfold extract_signature exceptFallback extractSignatureCore extractPipeline
  rw [h]

theorem extract_signature_some_branch {body : List Char} {m : Nat}
    (h : findSignoff (candidateText body) = some m) :
    extract_signature body =
      (pyStrip ((joinWith (get_delimiter body) (linesOf body)).take
        ((joinWith (get_delimiter body) (linesOf body)).length -
          ((candidateText body).drop m).length)),
       some (pyStrip (match phoneSigOf body with
         | some ph => joinWith (get_delimiter body) [(candidateText body).drop m, ph]
         | none => (candidateText body).drop m))) := by
  unfold extract_signature exceptFallback extractSignatureCore extractPipeline
  rw [h]

theorem sig_branch_structure (body : List Char) {m : Nat}
    (h : findSignoff (candidateText body) = some m) :
    ∃ i, 0 < i ∧ i < (linesOf body).length ∧
      get_signature_candidate (linesOf body) = (linesOf body).drop i ∧
      m < (candidateText body).length := by
  have hlt := findSignoff_lt h
  rcases get_signature_candidate_shape (linesOf body) with h1 | ⟨i, h1, h2, h3⟩
  · exfalso
    have hct : candidateText body = [] := by
      unfold candidateText
      rw [h1]
      rfl
    rw [hct, findSignoff_nil] at h
    exact absurd h (by simp)
  · exact ⟨i, h1, h2, h3, hlt⟩

theorem joined_decomp (body : List Char) {i : Nat}
    (h2 : i < (linesOf body).length) (h1 : 0 < i)
    (h3 : get_signature_candidate (linesOf body) = (linesOf body).drop i) :
    joinWith (get_delimiter body) (linesOf body) =
      (joinWith (get_delimiter body) ((linesOf body).take i) ++ get_delimiter body) ++
        candidateText body := by
  have hct : candidateText body = joinWith (get_delimiter body) ((linesOf body).drop i) := by
    unfold candidateText
    rw [h3]
  have hlne : linesOf body ≠ [] := by
    intro hnil
    rw [hnil] at h2
    simp at h2
  have htake : (linesOf body).take i ≠ [] := by
    intro htk
    rcases List.take_eq_nil_iff.mp htk with h4 | h4
    · omega
    · exact absurd h4 hlne
  have hdrop : (linesOf body).drop i ≠ [] := by
    intro hdr
    have := List.drop_eq_nil_iff.mp hdr
    omega
  rw [hct, ← List.take_append_drop i (linesOf body),
    joinWith_append _ htake hdrop]
  simp [List.take_append_drop, List.append_assoc]

theorem take_sub_of_suffix {A B : List Char} {m : Nat} (hm : m ≤ B.length) :
    (A ++ B).take ((A ++ B).length - (B.drop m).length) = A ++ B.take m := by
  have h1 : (B.drop m).length = B.length - m := by simp
  have h2 : (A ++ B).length = A.length + B.length := by simp
  have h3 : A.length + B.length - (B.length - m) = A.length + m := by omega
  rw [h1, h2, h3, List.take_append]

theorem pyStrip_cons_ne_nil {c : Char} {l : List Char} (h : isPyWs c = false) :
    pyStrip (c :: l) ≠ [] := by
  intro h2
  exact absurd (pyStrip_eq_nil_iff.mp h2 c (by simp)) (by simp [h])

theorem pyStrip_subset {x : List Char} : ∀ c ∈ pyStrip x, c ∈ x := by
  intro c hc
  unfold pyStrip at hc
  have h1 : c ∈ x.dropWhile isPyWs :=
    (rdropWs_prefixOf (x.dropWhile isPyWs)).sublist.subset hc
  exact mem_of_mem_dropWhile h1

theorem get_signature_candidate_singleton (x : List Char) :
    get_signature_candidate [x] = [] := by
  unfold get_signature_candidate
  rw [if_pos]
  have h1 : List.Sublist (nonEmptyIndexes [x]) (List.range 1) := by
    unfold nonEmptyIndexes
    have h0 := List.filter_sublist
      (l := List.range ([x] : List (List Char)).length)
      (p := fun i => !(pyStrip (([x] : List (List Char)).getD i [])).isEmpty)
    simp only [List.length_singleton] at h0
    exact h0
  have h2 := h1.length_le
  simp only [List.length_range] at h2
  exact h2

theorem extract_some_fst {body : List Char} {m : Nat}
    (h : findSignoff (candidateText body) = some m) :
    (extract_signature body).1 =
      pyStrip ((joinWith (get_delimiter body) (linesOf body)).take
        ((joinWith (get_delimiter body) (linesOf body)).length -
          ((candidateText body).drop m).length)) := by
  rw [extract_signature_some_branch h]

theorem extract_some_snd {body : List Char} {m : Nat}
    (h : findSignoff (candidateText body) = some m) :
    (extract_signature body).2 =
      some (pyStrip (match phoneSigOf body with
        | some ph => joinWith (get_delimiter body) [(candidateText body).drop m, ph]
        | none => (candidateText body).drop m)) := by
  rw [extract_signature_some_branch h]

/-! ## The claims -/

/-- C1: for the marker string `clddc` the spec (and the function's own
doctest) demand that the selected window be the trailing `d c` pair
`[15, 17]`; the code's leftmost-position regex search instead matches the
lone `c` at position 0 via the third alternative and returns `[9, 12]`. -/
theorem C1_process_marked_clddc :
    process_marked_candidate_indexes [9, 12, 14, 15, 17] ("clddc".toList) = [9, 12] ∧
    process_marked_candidate_indexes [9, 12, 14, 15, 17] ("clddc".toList) ≠ [15, 17] := by
  constructor
  · decide
  · decide

/-- C2: the pipeline is total — the `try` body always succeeds and
`extract_signature` returns exactly its well-formed pair; and the
`except` handler turns any error into the original, untouched body with an
absent signature. -/
theorem C2_never_raises_and_fallback (body : List Char) :
    (∃ r, extractSignatureCore body = Except.ok r ∧ extract_signature body = r) ∧
    (∀ e : String, exceptFallback body (Except.error e) = (body, none)) :=
  ⟨⟨extractPipeline body, rfl, rfl⟩, fun _ => rfl⟩

/-- C4: on a body with leading whitespace, the phone-footer match offset
(an offset into the raw body) is applied to the trimmed working copy, so
the cleaned body keeps a residue (`"Se"`) of the footer instead of being
the input with the footer exactly removed (`"Hi"`). -/
theorem C4_phone_offset_residue :
    extract_signature ("  Hi\nSent from my iPhone".toList) =
      ("Hi\nSe".toList, some ("Sent from my iPhone".toList)) ∧
    "Hi\nSe".toList ≠ "Hi".toList := by
  constructor
  · decide
  · decide

/-- C5 counterexample: when the signature consists only of a phone footer,
it is returned exactly as matched — here with its trailing newline — so it
is not trimmed of trailing whitespace. -/
theorem C5_counterexample :
    extract_signature ("Hello there\nSent from my iPhone\n".toList) =
      ("Hello there".toList, some ("Sent from my iPhone\n".toList)) ∧
    pyStrip ("Sent from my iPhone\n".toList) ≠ "Sent from my iPhone\n".toList := by
  constructor
  · decide
  · decide

/-- C5 amended: the cleaned body is always trimmed of leading and trailing
whitespace, and the signature is trimmed whenever the sign-off branch was
taken; only the phone-footer-only signature is returned as matched. -/
theorem C5_amended_trimming (body : List Char) :
    pyStrip (extract_signature body).1 = (extract_signature body).1 ∧
    (findSignoff (candidateText body) ≠ none →
      ∀ sg, (extract_signature body).2 = some sg → pyStrip sg = sg) := by
  rcases hfs : findSignoff (candidateText body) with _ | m
  · rw [extract_signature_none_branch hfs]
    exact ⟨pyStrip_idem _, fun hne => (hne rfl).elim⟩
  · constructor
    · rw [extract_some_fst hfs]
      exact pyStrip_idem _
    · intro _ sg hsg
      rw [extract_some_snd hfs] at hsg
      have h2 := Option.some.inj hsg
      rw [← h2]
      exact pyStrip_idem _

/-- C5 witness: a concrete sign-off extraction whose returned signature is
indeed trimmed. -/
theorem C5_amended_trimming_witness :
    findSignoff (candidateText ("A\nregards".toList)) ≠ none ∧
    (extract_signature ("A\nregards".toList)).2 = some ("regards".toList) ∧
    pyStrip ("regards".toList) = "regards".toList :=
  ⟨by decide, by decide,
   (C5_amended_trimming ("A\nregards".toList)).2 (by decide) _ (by decide)⟩

/-- C10: whenever at least two non-empty lines exist, the candidate index
list handed to the marker and grammar stages is exactly the list of all
indices of content-bearing lines greater than 0, in strictly increasing
order, with no bound on its length. -/
theorem C10_candidate_indexes_exact (lines : List (List Char))
    (_h : 2 ≤ (nonEmptyIndexes lines).length) :
    candidateIndexes lines = (List.range lines.length).filter
      (fun i => decide (0 < i) && !(pyStrip (lines.getD i [])).isEmpty) ∧
    List.Pairwise (· < ·) (candidateIndexes lines) := by
  constructor
  · unfold candidateIndexes nonEmptyIndexes
    rw [List.filter_filter]
  · refine List.Pairwise.sublist ?_ (List.pairwise_lt_range lines.length)
    unfold candidateIndexes nonEmptyIndexes
    exact (List.filter_sublist _).trans (List.filter_sublist _)

/-- C10 witness: three one-character lines. -/
theorem C10_candidate_indexes_exact_witness :
    2 ≤ (nonEmptyIndexes ["a".toList, "b".toList, "c".toList]).length ∧
    (candidateIndexes ["a".toList, "b".toList, "c".toList] =
      (List.range (["a".toList, "b".toList, "c".toList] :
          List (List Char)).length).filter
        (fun i => decide (0 < i) &&
          !(pyStrip ((["a".toList, "b".toList, "c".toList] :
            List (List Char)).getD i [])).isEmpty) ∧
     List.Pairwise (· < ·) (candidateIndexes ["a".toList, "b".toList, "c".toList])) :=
  ⟨by decide, C10_candidate_indexes_exact _ (by decide)⟩

/-- C6 counterexample: `"Sent from my iPhone"` is a single non-empty line,
yet extraction returns an empty cleaned body and a present signature,
because the phone-footer carve-out does not need a candidate window. -/
theorem C6_counterexample :
    contentLines (pySplitlines ("Sent from my iPhone".toList)) =
      ["Sent from my iPhone".toList] ∧
    extract_signature ("Sent from my iPhone".toList) ≠
      (pyStrip ("Sent from my iPhone".toList), none) := by
  constructor
  · decide
  · decide

/-- C6 amended: for every body with exactly one non-empty line on which
the phone-footer pattern finds no match, extraction returns that line
trimmed together with an absent signature. -/
theorem C6_amended_single_line (body l : List Char)
    (hp : findPhone body = none)
    (h : contentLines (pySplitlines body) = [l]) :
    extract_signature body = (pyStrip l, none) := by
  have hkey : pyStrip body = pyStrip l := pyStrip_eq_of_unique_content h
  have hlmem : l ∈ pySplitlines body := by
    have h1 : l ∈ contentLines (pySplitlines body) := by rw [h]; simp
    exact (List.mem_filter.mp h1).1
  have hlcontent : pyStrip l ≠ [] := by
    have h1 : l ∈ contentLines (pySplitlines body) := by rw [h]; simp
    have h2 := (List.mem_filter.mp h1).2
    simpa using h2
  have hnob : ∀ c ∈ pyStrip l, isLineBoundary c = false := fun c hc =>
    no_boundary_of_mem_lines l hlmem c (pyStrip_subset c hc)
  have hsb : strippedBody body = pyStrip l := by
    rw [strippedBody_no_phone hp, hkey]
  have hlines : linesOf body = [pyStrip l] := by
    unfold linesOf
    rw [hsb]
    exact pySplitlines_no_boundary hlcontent hnob
  have hgsc : get_signature_candidate (linesOf body) = [] := by
    rw [hlines]
    exact get_signature_candidate_singleton _
  have hfs : findSignoff (candidateText body) = none := by
    have hct : candidateText body = [] := by
      unfold candidateText
      rw [hgsc]
      rfl
    rw [hct]
    exact findSignoff_nil
  rw [extract_signature_none_branch hfs, hsb, pyStrip_idem, phoneSigOf_none hp]

/-- C6 witness: a single line surrounded by whitespace. -/
theorem C6_amended_single_line_witness :
    findPhone ("  hello  ".toList) = none ∧
    contentLines (pySplitlines ("  hello  ".toList)) = ["  hello  ".toList] ∧
    extract_signature ("  hello  ".toList) = (pyStrip ("  hello  ".toList), none) :=
  ⟨by decide, by decide, C6_amended_single_line _ _ (by decide) (by decide)⟩

/-- C7 counterexample: a body ending in a content character (so with no
trailing empty lines) and containing two dash lines.  The first extraction
keeps the first dash line in the cleaned body; running extraction on that
cleaned body extracts it as a fresh signature, so extraction is not
idempotent on the cleaned body. -/
theorem C7_counterexample :
    noTrailingWhitespace ("X\n-- a\n-- b\nY".toList) = true ∧
    extract_signature ("X\n-- a\n-- b\nY".toList) =
      ("X\n-- a".toList, some ("-- b\nY".toList)) ∧
    extract_signature ((extract_signature ("X\n-- a\n-- b\nY".toList)).1) ≠
      ((extract_signature ("X\n-- a\n-- b\nY".toList)).1, none) := by
  refine ⟨by decide, by decide, ?_⟩
  decide

/-- C7 amended: extraction is idempotent on the cleaned body whenever the
first application finds no sign-off (it returns an absent signature), the
phone-footer pattern matches neither the body nor its trim, and delimiter
detection agrees on the body and its trim. -/
theorem C7_amended_idempotent (body : List Char)
    (h1 : findPhone body = none)
    (h2 : findPhone (pyStrip body) = none)
    (h3 : get_delimiter (pyStrip body) = get_delimiter body)
    (h4 : (extract_signature body).2 = none) :
    extract_signature ((extract_signature body).1) =
      ((extract_signature body).1, none) := by
  rcases hfs : findSignoff (candidateText body) with _ | m
  · have hfst : (extract_signature body).1 = pyStrip body := by
      rw [extract_signature_none_branch hfs, strippedBody_no_phone h1, pyStrip_idem]
    have hsb2 : strippedBody (pyStrip body) = strippedBody body := by
      rw [strippedBody_no_phone h2, strippedBody_no_phone h1, pyStrip_idem]
    have hlines : linesOf (pyStrip body) = linesOf body := by
      unfold linesOf
      rw [hsb2]
    have hct : candidateText (pyStrip body) = candidateText body := by
      unfold candidateText
      rw [hlines, h3]
    have hfs2 : findSignoff (candidateText (pyStrip body)) = none := by
      rw [hct]
      exact hfs
    rw [hfst, extract_signature_none_branch hfs2, hsb2, strippedBody_no_phone h1,
      pyStrip_idem, phoneSigOf_none h2]
  · rw [extract_some_snd hfs] at h4
    exact absurd h4 (by simp)

/-- C7 witness: a two-line body with no signature at all. -/
theorem C7_amended_idempotent_witness :
    findPhone ("A\nB".toList) = none ∧
    findPhone (pyStrip ("A\nB".toList)) = none ∧
    get_delimiter (pyStrip ("A\nB".toList)) = get_delimiter ("A\nB".toList) ∧
    (extract_signature ("A\nB".toList)).2 = none ∧
    extract_signature ((extract_signature ("A\nB".toList)).1) =
      ((extract_signature ("A\nB".toList)).1, none) :=
  ⟨by decide, by decide, by decide, by decide,
   C7_amended_idempotent _ (by decide) (by decide) (by decide) (by decide)⟩

/-- C8 counterexample: the working copy is split by `str.splitlines`, which
also splits at a vertical tab even though the detected delimiter is
`"\n"`; splitting on the delimiter alone would keep the line whole. -/
theorem C8_counterexample :
    get_delimiter ("a\x0bb".toList) = ['\n'] ∧
    linesOf ("a\x0bb".toList) ≠ pySplitOn '\n' (strippedBody ("a\x0bb".toList)) := by
  constructor
  · decide
  · decide

theorem mem_field_of_mem_pySplitOn {sep c : Char} {s : List Char}
    (hc : c ∈ s) (hcne : c ≠ sep) : ∃ x ∈ pySplitOn sep s, c ∈ x := by
  induction s with
  | nil => simp at hc
  | cons c0 rest ih =>
    by_cases h0 : c0 = sep
    · subst h0
      rw [pySplitOn_cons_sep]
      rcases List.mem_cons.mp hc with h1 | h1
      · exact absurd h1 hcne
      · obtain ⟨x, hx1, hx2⟩ := ih h1
        exact ⟨x, List.mem_cons_of_mem _ hx1, hx2⟩
    · rw [pySplitOn_cons_not_sep h0]
      rcases hso : pySplitOn sep rest with _ | ⟨l, ls⟩
      · exact absurd hso pySplitOn_ne_nil
      · rcases List.mem_cons.mp hc with h1 | h1
        · subst h1
          exact ⟨c :: l, List.mem_cons_self _ _, List.mem_cons_self _ _⟩
        · obtain ⟨x, hx1, hx2⟩ := ih h1
          rw [hso] at hx1
          rcases List.mem_cons.mp hx1 with h2 | h2
          · subst h2
            exact ⟨c0 :: x, List.mem_cons_self _ _, List.mem_cons_of_mem _ hx2⟩
          · exact ⟨x, List.mem_cons_of_mem _ h2, hx2⟩

/-- On texts whose only line boundaries are `\n`, a trailing `\n` makes
`splitlines` return one field fewer than splitting on `"\n"` (the split
keeps the final empty field, `splitlines` drops it). -/
theorem length_succ_of_trailing_nl {s : List Char}
    (hb : ∀ c ∈ s, isLineBoundary c = true → c = '\n')
    (hl : s.getLast? = some '\n') :
    (pySplitlines s).length + 1 = (pySplitOn '\n' s).length := by
  induction s using pySplitlines.induct with
  | case1 => simp at hl
  | case2 => exact absurd (hb '\r' (by simp) (by decide)) (by decide)
  | case3 rest2 ih => exact absurd (hb '\r' (by simp) (by decide)) (by decide)
  | case4 c2 rest2 hn ih => exact absurd (hb '\r' (by simp) (by decide)) (by decide)
  | case5 c rest hr hbd ih =>
    have hcn : c = '\n' := hb c (by simp) hbd
    subst hcn
    rw [pySplitlines_cons_boundary hr hbd, pySplitOn_cons_sep]
    cases rest with
    | nil =>
      rw [pySplitlines_nil, pySplitOn_nil]
      rfl
    | cons r rs =>
      have hge : (r :: rs).getLast? = some '\n' := by
        rw [show ('\n' :: r :: rs).getLast? = (r :: rs).getLast? from
          List.getLast?_cons_cons] at hl
        exact hl
      have ihe := ih (fun ch hch h2 => hb ch (List.mem_cons_of_mem _ hch) h2) hge
      simp only [List.length_cons]
      omega
  | case6 c rest hr hbd hsp ih =>
    have hrest : rest = [] := pySplitlines_eq_nil_iff.mp hsp
    subst hrest
    have hcn : c = '\n' := by simpa using hl
    subst hcn
    exact absurd (by decide : isLineBoundary '\n' = true) (by simpa using hbd)
  | case7 c rest hr hbd l ls hsp ih =>
    have hrest : rest ≠ [] := by
      intro h2
      subst h2
      rw [pySplitlines_nil] at hsp
      exact absurd hsp (by simp)
    have hcn : c ≠ '\n' := by
      intro h2
      subst h2
      simp [isLineBoundary] at hbd
    have hge : rest.getLast? = some '\n' := by
      rcases rest with _ | ⟨r, rs⟩
      · exact absurd rfl hrest
      · rw [show (c :: r :: rs).getLast? = (r :: rs).getLast? from
          List.getLast?_cons_cons] at hl
        exact hl
    have ihe := ih (fun ch hch h2 => hb ch (List.mem_cons_of_mem _ hch) h2) hge
    rw [pySplitlines_cons_content (by simpa using hbd), hsp,
      pySplitOn_cons_not_sep hcn]
    rcases hso : pySplitOn '\n' rest with _ | ⟨l2, ls2⟩
    · exact absurd hso pySplitOn_ne_nil
    · rw [hsp, hso] at ihe
      simp only [List.length_cons] at ihe ⊢
      omega

/-- C8 amended: the split of step 4 uses Python `splitlines`; its result
coincides with splitting the working copy on the detected delimiter `"\n"`
(delimiter stripped) exactly when the working copy is non-empty, contains
no line-boundary character other than the delimiter, and does not end with
the delimiter — each violation breaks the coincidence. -/
theorem C8_amended_split (body : List Char)
    (_hd : get_delimiter body = ['\n']) :
    linesOf body = pySplitOn '\n' (strippedBody body) ↔
      (strippedBody body ≠ [] ∧
        (∀ c ∈ strippedBody body, isLineBoundary c = true → c = '\n') ∧
        (strippedBody body).getLast? ≠ some '\n') := by
  unfold linesOf
  constructor
  · intro heq
    have hA : strippedBody body ≠ [] := by
      intro h0
      rw [h0, pySplitlines_nil, pySplitOn_nil] at heq
      exact absurd heq (by simp)
    have hB : ∀ c ∈ strippedBody body, isLineBoundary c = true → c = '\n' := by
      intro c hc hbc
      by_contra hcn
      obtain ⟨x, hx1, hx2⟩ := mem_field_of_mem_pySplitOn hc hcn
      rw [← heq] at hx1
      have h3 := no_boundary_of_mem_lines x hx1 c hx2
      rw [h3] at hbc
      exact absurd hbc (by simp)
    refine ⟨hA, hB, ?_⟩
    intro hC
    have hlen := length_succ_of_trailing_nl hB hC
    rw [heq] at hlen
    omega
  · rintro ⟨hA, hB, hC⟩
    exact pySplitlines_eq_pySplitOn hA hB hC

/-- C8 witness: a two-line body whose only boundary is the delimiter; both
directions of the equivalence are exercised on it. -/
theorem C8_amended_split_witness :
    get_delimiter ("a\nb".toList) = ['\n'] ∧
    (linesOf ("a\nb".toList) = pySplitOn '\n' (strippedBody ("a\nb".toList)) ↔
      (strippedBody ("a\nb".toList) ≠ [] ∧
        (∀ c ∈ strippedBody ("a\nb".toList), isLineBoundary c = true → c = '\n') ∧
        (strippedBody ("a\nb".toList)).getLast? ≠ some '\n')) :=
  ⟨by decide, C8_amended_split _ (by decide)⟩

theorem sig_branch_head (body : List Char) {m : Nat}
    (h : findSignoff (candidateText body) = some m) :
    ∃ c t, strippedBody body = c :: t ∧ isPyWs c = false ∧
      ∃ l0 ls, linesOf body = (c :: l0) :: ls := by
  obtain ⟨i, _, hi2, _, _⟩ := sig_branch_structure body h
  have hlne : linesOf body ≠ [] := by
    intro hnil
    rw [hnil] at hi2
    simp at hi2
  have hsbne : strippedBody body ≠ [] := by
    intro hnil
    apply hlne
    unfold linesOf
    rw [hnil, pySplitlines_nil]
  obtain ⟨c, t, hsb, hcw⟩ := strippedBody_head hsbne
  have hbnd : isLineBoundary c = false := by
    by_contra hbc
    have h2 := isPyWs_of_isLineBoundary (by simpa using hbc)
    rw [h2] at hcw
    exact absurd hcw (by simp)
  refine ⟨c, t, hsb, hcw, ?_⟩
  unfold linesOf
  rw [hsb]
  exact pySplitlines_head_of_not_boundary hbnd

/-- C9: whenever the sign-off phrase search succeeds on the candidate
window, the cleaned body returned by `extract_signature` is non-empty: the
window starts at index 1 or later, so the first line of the working copy —
whose first character is not whitespace — survives into the cleaned
body. -/
theorem C9_signoff_cleaned_nonempty (body : List Char) (m : Nat)
    (h : findSignoff (candidateText body) = some m) :
    (extract_signature body).1 ≠ [] := by
  obtain ⟨i, hi1, hi2, hi3, hm⟩ := sig_branch_structure body h
  obtain ⟨c, t, hsb, hcw, l0, ls, hlines⟩ := sig_branch_head body h
  have hjd := joined_decomp body hi2 hi1 hi3
  rcases Nat.exists_eq_succ_of_ne_zero (Nat.pos_iff_ne_zero.mp hi1) with ⟨n, hn⟩
  have htk : (linesOf body).take i = (c :: l0) :: (ls.take n) := by
    rw [hlines, hn, List.take_succ_cons]
  have hAhead : ∃ r, joinWith (get_delimiter body) ((linesOf body).take i) ++
      get_delimiter body = c :: r := by
    rw [htk, joinWith_cons_head]
    exact ⟨_, rfl⟩
  obtain ⟨r, hr⟩ := hAhead
  have hfst := extract_some_fst h
  rw [hjd, take_sub_of_suffix (Nat.le_of_lt hm), hr] at hfst
  rw [show (c :: r) ++ (candidateText body).take m =
    c :: (r ++ (candidateText body).take m) from rfl] at hfst
  rw [hfst]
  exact pyStrip_cons_ne_nil hcw

/-- C9 witness: a concrete extraction through the sign-off branch. -/
theorem C9_signoff_cleaned_nonempty_witness :
    findSignoff (candidateText ("A\nregards".toList)) = some 0 ∧
    (extract_signature ("A\nregards".toList)).1 ≠ [] :=
  ⟨by decide, C9_signoff_cleaned_nonempty _ 0 (by decide)⟩

/-- C3 counterexample: on the spec's own first scenario (no phone footer
at all, so no patterns in "reversed/nested positions"), re-joining cleaned
body + delimiter + signature yields a single `\n` where the original had a
blank line, so the round-trip equation fails. -/
theorem C3_counterexample :
    findPhone ("Hey man! How r u?\n\n--\nRegards,\nRoman".toList) = none ∧
    extract_signature ("Hey man! How r u?\n\n--\nRegards,\nRoman".toList) =
      ("Hey man! How r u?".toList, some ("--\nRegards,\nRoman".toList)) ∧
    pyStrip ("Hey man! How r u?".toList ++
        get_delimiter ("Hey man! How r u?\n\n--\nRegards,\nRoman".toList) ++
        "--\nRegards,\nRoman".toList) ≠
      pyStrip ("Hey man! How r u?\n\n--\nRegards,\nRoman".toList) := by
  refine ⟨by decide, by decide, by decide⟩

/-- C3 amended: when a sign-off signature is returned, no phone footer
matched, the detected delimiter is `"\n"` and every line boundary of the
trimmed body is that delimiter, the trimmed body is reconstructed as
cleaned body + (dropped whitespace) + signature: the whitespace that stood
at the cut point — not the bare delimiter — is what joins the parts. -/
theorem C3_amended_roundtrip (body cb sg : List Char)
    (hp : findPhone body = none)
    (hb : ∀ c ∈ pyStrip body, isLineBoundary c = true → c = '\n')
    (hd : get_delimiter body = ['\n'])
    (he : extract_signature body = (cb, some sg)) :
    ∃ w, (∀ c ∈ w, isPyWs c = true) ∧ pyStrip body = cb ++ w ++ sg := by
  rcases hfs : findSignoff (candidateText body) with _ | m
  · rw [extract_signature_none_branch hfs, phoneSigOf_none hp] at he
    have h2 := congrArg Prod.snd he
    exact absurd h2 (by simp)
  obtain ⟨i, hi1, hi2, hi3, hm⟩ := sig_branch_structure body hfs
  obtain ⟨c, t, hsb, hcw, l0, ls, hlines⟩ := sig_branch_head body hfs
  have hsb0 : strippedBody body = pyStrip body := strippedBody_no_phone hp
  -- the join of the split lines restores the trimmed body
  have hlast : (pyStrip body).getLast? ≠ some '\n' := by
    rcases hgl : (pyStrip body).getLast? with _ | c2
    · simp
    · have h2 := pyStrip_last_not_ws hgl
      intro heq
      have h3 : c2 = '\n' := Option.some.inj heq
      rw [h3] at h2
      exact absurd h2 (by simp [isPyWs])
  have hJ : joinWith (get_delimiter body) (linesOf body) = pyStrip body := by
    rw [hd]
    unfold linesOf
    rw [hsb0]
    exact joinWith_pySplitlines hb hlast
  -- decompose the join around the candidate window
  have hjd := joined_decomp body hi2 hi1 hi3
  rcases Nat.exists_eq_succ_of_ne_zero (Nat.pos_iff_ne_zero.mp hi1) with ⟨n, hn⟩
  have htk : (linesOf body).take i = (c :: l0) :: (ls.take n) := by
    rw [hlines, hn, List.take_succ_cons]
  obtain ⟨r, hr⟩ : ∃ r, joinWith (get_delimiter body) ((linesOf body).take i) ++
      get_delimiter body = c :: r := by
    rw [htk, joinWith_cons_head]
    exact ⟨_, rfl⟩
  -- the two raw pieces
  have hfst := extract_some_fst hfs
  rw [hjd, take_sub_of_suffix (Nat.le_of_lt hm), hr] at hfst
  have hsnd : (extract_signature body).2 =
      some (pyStrip ((candidateText body).drop m)) := by
    rw [extract_some_snd hfs, phoneSigOf_none hp]
  have hcb : cb = pyStrip ((c :: r) ++ (candidateText body).take m) := by
    have h2 := congrArg Prod.fst he
    simp only at h2
    rw [← h2, hfst]
  have hsg : sg = pyStrip ((candidateText body).drop m) := by
    have h2 := congrArg Prod.snd he
    simp only at h2
    rw [h2] at hsnd
    exact Option.some.inj hsnd
  -- the trimmed body splits as raw-clean ++ raw-signature
  have hsplit : pyStrip body =
      ((c :: r) ++ (candidateText body).take m) ++ (candidateText body).drop m := by
    rw [← hJ, hjd, hr, List.append_assoc, List.take_append_drop]
  -- the raw clean part: strip removes only trailing whitespace
  obtain ⟨w1, hw1, hw1w⟩ :=
    rdropWs_append_decomp ((c :: r) ++ (candidateText body).take m)
  have hrd : rdropWs ((c :: r) ++ (candidateText body).take m) = cb := by
    rw [hcb]
    exact (pyStrip_cons_not_ws hcw).symm
  -- the raw signature part: strip removes only leading whitespace
  have hdne : (candidateText body).drop m ≠ [] := by
    intro h2
    have h3 := List.drop_eq_nil_iff.mp h2
    omega
  obtain ⟨b, hbl⟩ : ∃ b, ((candidateText body).drop m).getLast? = some b := by
    rcases hgl : ((candidateText body).drop m).getLast? with _ | b
    · exact absurd (List.getLast?_eq_none_iff.mp hgl) hdne
    · exact ⟨b, rfl⟩
  have hblast : (pyStrip body).getLast? = some b := by
    rw [hsplit, List.getLast?_append, hbl]
    rfl
  have hbw : isPyWs b = false := by
    have h2 : (pyStrip (pyStrip body)).getLast? = some b := by
      rw [pyStrip_idem]
      exact hblast
    exact pyStrip_last_not_ws h2
  have hsg2 : (candidateText body).drop m =
      ((candidateText body).drop m).takeWhile isPyWs ++ sg := by
    rw [hsg, pyStrip_of_last_not_ws hbl hbw]
    exact (List.takeWhile_append_dropWhile isPyWs _).symm
  have hsg2w : ∀ ch ∈ ((candidateText body).drop m).takeWhile isPyWs,
      isPyWs ch = true := fun _ hch => List.mem_takeWhile_imp hch
  -- assemble
  refine ⟨w1 ++ ((candidateText body).drop m).takeWhile isPyWs, ?_, ?_⟩
  · intro ch hch
    rcases List.mem_append.mp hch with h2 | h2
    · exact hw1w ch h2
    · exact hsg2w ch h2
  · rw [hsplit]
    conv_lhs => rw [hw1, hrd, hsg2]
    simp [List.append_assoc]

/-- C3 witness: a concrete sign-off extraction where the trimmed body is
cleaned body ++ `"\n"` ++ signature. -/
theorem C3_amended_roundtrip_witness :
    findPhone ("A\nregards".toList) = none ∧
    (∀ c ∈ pyStrip ("A\nregards".toList), isLineBoundary c = true → c = '\n') ∧
    get_delimiter ("A\nregards".toList) = ['\n'] ∧
    extract_signature ("A\nregards".toList) = ("A".toList, some ("regards".toList)) ∧
    ∃ w, (∀ c ∈ w, isPyWs c = true) ∧
      pyStrip ("A\nregards".toList) = "A".toList ++ w ++ "regards".toList :=
  ⟨by decide, by decide, by decide, by decide,
   C3_amended_roundtrip _ _ _ (by decide) (by decide) (by decide) (by decide)⟩

end Talon
